import Mathlib

/-!
Verification of the derived-statistics pipeline of the dashboard
(`src/store/selectors/statisticsSelectors.ts`): the filter, sort, paginate
and aggregate stages over per-user task-count records.

The TypeScript selectors are shallowly embedded as pure Lean functions.
JavaScript strings are modelled as Lean `String`s; `String.prototype.toLowerCase`
is modelled on the character ranges the data uses (ASCII and Russian Cyrillic);
`Intl.Collator("ru").compare` is modelled as a two-level (primary, tertiary)
collation; JavaScript numbers in the paginate stage are modelled by `JSNum`
(exact rationals extended with infinities and NaN); `Array.prototype.sort`,
which ECMAScript requires to be a stable sort, is modelled by
`List.insertionSort`, which is stable.
-/

/-- One per-user statistics record (`UserStatistic` in `shared/types/types`,
fields as consumed by the selectors and by `UsersTable`). -/
structure UserStatistic where
  id : Nat
  name : String
  avatarUrl : Option String
  completedTasks : Nat
  inWorkTasks : Nat
  failedTasks : Nat
deriving DecidableEq

/-- Model of the simple lowercase mapping used by
`String.prototype.toLowerCase`, restricted to ASCII letters and Russian
Cyrillic (`А`..`Я` map to `а`..`я`, `Ё` to `ё`); all other characters are
left unchanged. -/
def jsCharToLower (c : Char) : Char :=
  if 'A' ≤ c ∧ c ≤ 'Z' then Char.ofNat (c.toNat + 32)
  else if 'А' ≤ c ∧ c ≤ 'Я' then Char.ofNat (c.toNat + 32)
  else if c = 'Ё' then 'ё'
  else c

/-- Model of `String.prototype.toLowerCase` (see `jsCharToLower`). -/
def jsToLower (s : String) : String :=
  ⟨s.data.map jsCharToLower⟩

/-- The Russian alphabet in collation order, lowercase. -/
def ruAlphabet : List Char :=
  "абвгдеёжзийклмнопрстуфхцчшщъыьэюя".data

/-- Primary collation weight of a character under the `ru` locale: the
case-folded letter position in the Russian alphabet; characters outside the
Russian alphabet are weighted by their case-folded code point, which places
ASCII (and every other script) before Cyrillic as in root collation. -/
def ruPrimary (c : Char) : Nat :=
  let lc := jsCharToLower c
  match ruAlphabet.findIdx? (fun x => x == lc) with
  | some i => 0x110000 + i
  | none => lc.toNat

/-- Tertiary collation weight: lowercase (or caseless) before uppercase,
as in the default ICU tailoring. -/
def ruTertiary (c : Char) : Nat :=
  if jsCharToLower c = c then 0 else 1

/-- Collation key of a string: the primary weights (shifted by one so that
they are all positive), a zero separator, then the tertiary weights.
Comparing keys lexicographically compares whole-string primary weights
first and breaks ties by the tertiary weights. -/
def collKey (s : String) : List Nat :=
  s.data.map (fun c => 1 + ruPrimary c) ++ 0 :: s.data.map ruTertiary

/-- Three-way lexicographic comparison of weight lists, reported JavaScript
style as a negative, zero or positive integer. -/
def cmpNatList : List Nat → List Nat → Int
  | [], [] => 0
  | [], _ :: _ => -1
  | _ :: _, [] => 1
  | a :: as, b :: bs =>
    if a < b then -1 else if b < a then 1 else cmpNatList as bs

/-- Model of `Intl.Collator("ru").compare`: two-level collation comparing
the key of `collKey`. -/
def collatorRuCompare (x y : String) : Int :=
  cmpNatList (collKey x) (collKey y)

/-- Cumulative task count of a record (the derived `total` of the spec). -/
def totalTasks (u : UserStatistic) : Nat :=
  u.completedTasks + u.inWorkTasks + u.failedTasks

/-- Does `needle` occur at the start of `hay`? (Model of the anchored
comparison inside `String.prototype.includes`.) -/
def charsStartWith : List Char → List Char → Bool
  | _, [] => true
  | [], _ :: _ => false
  | a :: as, b :: bs => a == b && charsStartWith as bs

/-- Does `needle` occur anywhere in `hay`? (Character-list search.) -/
def charsContain : List Char → List Char → Bool
  | [], needle => charsStartWith [] needle
  | h :: t, needle => charsStartWith (h :: t) needle || charsContain t needle

/-- Model of `String.prototype.includes`. -/
def strIncludes (s sub : String) : Bool :=
  charsContain s.data sub.data

/-- Model of `String.prototype.trim`: drop leading and trailing whitespace. -/
def jsTrim (s : String) : String :=
  ⟨((s.data.dropWhile Char.isWhitespace).reverse.dropWhile
    Char.isWhitespace).reverse⟩

/-- The filter stage: the transformation of `makeSelectFiltered`.
The query is trimmed and lowercased; a non-empty query keeps records whose
lowercased name contains it; `onlyActive` additionally keeps records with at
least one task. -/
def makeSelectFiltered (global : List UserStatistic) (query : String)
    (onlyActive : Bool) : List UserStatistic :=
  let q := jsToLower (jsTrim query)
  let arr :=
    if q = "" then global
    else global.filter (fun u => strIncludes (jsToLower u.name) q)
  if onlyActive then arr.filter (fun u => decide (0 < totalTasks u)) else arr

/-- A descending-metric comparator as built inline in `makeSelectSorted`:
`(a, b) => metric(b) - metric(a) || collator.compare(a.name, b.name)`. -/
def descCmp (metric : UserStatistic → Nat) (a b : UserStatistic) : Int :=
  if (metric b : Int) - (metric a : Int) = 0 then
    collatorRuCompare a.name b.name
  else (metric b : Int) - (metric a : Int)

/-- The comparator of the `completedDesc` branch. -/
def cmpCompletedDesc : UserStatistic → UserStatistic → Int :=
  descCmp (fun u => u.completedTasks)

/-- The comparator of the `failedDesc` branch. -/
def cmpFailedDesc : UserStatistic → UserStatistic → Int :=
  descCmp (fun u => u.failedTasks)

/-- The comparator of the `inWorkDesc` branch. -/
def cmpInWorkDesc : UserStatistic → UserStatistic → Int :=
  descCmp (fun u => u.inWorkTasks)

/-- The comparator of the `nameAsc` (and default) branch:
`(a, b) => collator.compare(a.name, b.name)`. -/
def cmpNameAsc (a b : UserStatistic) : Int :=
  collatorRuCompare a.name b.name

/-- Model of `Array.prototype.sort` with a comparator: ECMAScript requires a
stable sort, so we use insertion sort, placing `a` before `b` whenever the
comparator does not report `a` after `b`. -/
def jsSortBy (cmp : UserStatistic → UserStatistic → Int)
    (l : List UserStatistic) : List UserStatistic :=
  List.insertionSort (fun a b => cmp a b ≤ 0) l

/-- The sort stage: the transformation of `makeSelectSorted`, a switch on
the sort mode whose default case coincides with `nameAsc`. -/
def makeSelectSorted (filtered : List UserStatistic) (sortMode : String) :
    List UserStatistic :=
  if sortMode = "completedDesc" then jsSortBy cmpCompletedDesc filtered
  else if sortMode = "failedDesc" then jsSortBy cmpFailedDesc filtered
  else if sortMode = "inWorkDesc" then jsSortBy cmpInWorkDesc filtered
  else jsSortBy cmpNameAsc filtered

/-- Floor of a rational as an integer, computably (`⌊q⌋`). -/
def ratFloor (q : ℚ) : ℤ :=
  q.num / (q.den : ℤ)

/-- Ceiling of a rational as an integer, computably (`⌈q⌉`). -/
def ratCeil (q : ℚ) : ℤ :=
  -ratFloor (-q)

/-- A JavaScript number as the paginate stage can observe it: an exact
rational (every value the pipeline produces on the inputs considered here is
exactly representable), positive or negative infinity, or NaN. Negative
zero is identified with zero. -/
inductive JSNum where
  | fin : ℚ → JSNum
  | inf : JSNum
  | ninf : JSNum
  | nan : JSNum
deriving DecidableEq

/-- JavaScript division, as used for `total / pageSize`. -/
def jsDiv : JSNum → JSNum → JSNum
  | .fin a, .fin b =>
    if b = 0 then (if 0 < a then .inf else if a < 0 then .ninf else .nan)
    else .fin (a / b)
  | .fin _, .inf => .fin 0
  | .fin _, .ninf => .fin 0
  | .inf, .fin b => if b < 0 then .ninf else .inf
  | .ninf, .fin b => if b < 0 then .inf else .ninf
  | .inf, .inf => .nan
  | .inf, .ninf => .nan
  | .ninf, .inf => .nan
  | .ninf, .ninf => .nan
  | .nan, _ => .nan
  | _, .nan => .nan

/-- JavaScript subtraction, as used for `currentPage - 1`. -/
def jsSub : JSNum → JSNum → JSNum
  | .fin a, .fin b => .fin (a - b)
  | .fin _, .inf => .ninf
  | .fin _, .ninf => .inf
  | .inf, .fin _ => .inf
  | .ninf, .fin _ => .ninf
  | .inf, .inf => .nan
  | .ninf, .ninf => .nan
  | .inf, .ninf => .inf
  | .ninf, .inf => .ninf
  | .nan, _ => .nan
  | _, .nan => .nan

/-- JavaScript multiplication, as used for the slice bounds. -/
def jsMul : JSNum → JSNum → JSNum
  | .fin a, .fin b => .fin (a * b)
  | .fin a, .inf => if 0 < a then .inf else if a < 0 then .ninf else .nan
  | .fin a, .ninf => if 0 < a then .ninf else if a < 0 then .inf else .nan
  | .inf, .fin b => if 0 < b then .inf else if b < 0 then .ninf else .nan
  | .ninf, .fin b => if 0 < b then .ninf else if b < 0 then .inf else .nan
  | .inf, .inf => .inf
  | .ninf, .ninf => .inf
  | .inf, .ninf => .ninf
  | .ninf, .inf => .ninf
  | .nan, _ => .nan
  | _, .nan => .nan

/-- `Math.ceil`. -/
def jsCeil : JSNum → JSNum
  | .fin q => .fin (ratCeil q : ℤ)
  | .inf => .inf
  | .ninf => .ninf
  | .nan => .nan

/-- Binary `Math.max` (NaN propagates). -/
def jsMax : JSNum → JSNum → JSNum
  | .fin a, .fin b => .fin (max a b)
  | .inf, .fin _ => .inf
  | .fin _, .inf => .inf
  | .ninf, x => if x = .nan then .nan else x
  | x, .ninf => if x = .nan then .nan else x
  | .inf, .inf => .inf
  | .nan, _ => .nan
  | _, .nan => .nan

/-- Binary `Math.min` (NaN propagates). -/
def jsMin : JSNum → JSNum → JSNum
  | .fin a, .fin b => .fin (min a b)
  | .ninf, .fin _ => .ninf
  | .fin _, .ninf => .ninf
  | .inf, x => if x = .nan then .nan else x
  | x, .inf => if x = .nan then .nan else x
  | .ninf, .ninf => .ninf
  | .nan, _ => .nan
  | _, .nan => .nan

/-- The result of `ToIntegerOrInfinity` in the `Array.prototype.slice`
algorithm: an integer or an infinity. -/
inductive IntOrInf where
  | int : ℤ → IntOrInf
  | posInf : IntOrInf
  | negInf : IntOrInf
deriving DecidableEq

/-- `ToIntegerOrInfinity`: NaN becomes 0, finite values truncate toward
zero, infinities stay. -/
def jsToIntegerOrInfinity : JSNum → IntOrInf
  | .nan => .int 0
  | .fin q => .int (if 0 ≤ q then ratFloor q else ratCeil q)
  | .inf => .posInf
  | .ninf => .negInf

/-- Resolution of one relative index of `Array.prototype.slice` against a
list length: negative indices count from the end, and the result is clamped
to `[0, len]`. -/
def sliceIndex (len : ℕ) : IntOrInf → ℕ
  | .posInf => len
  | .negInf => 0
  | .int i => if i < 0 then (len + i).toNat else min i.toNat len

/-- Model of `Array.prototype.slice(start, stop)`. -/
def jsSlice (l : List UserStatistic) (start stop : JSNum) : List UserStatistic :=
  let s := sliceIndex l.length (jsToIntegerOrInfinity start)
  let e := sliceIndex l.length (jsToIntegerOrInfinity stop)
  (l.take e).drop s

/-- The record returned by the paginate stage. -/
structure PaginateResult where
  data : List UserStatistic
  total : Nat
  totalPages : JSNum
  currentPage : JSNum
deriving DecidableEq

/-- The paginate stage: the transformation of `makeSelectPaginated`.
`total` is the list length; `totalPages = Math.max(1, Math.ceil(total / pageSize))`;
`currentPage = Math.min(Math.max(1, page), totalPages)`; `data` is
`sorted.slice((currentPage - 1) * pageSize, currentPage * pageSize)`. -/
def makeSelectPaginated (sorted : List UserStatistic) (page pageSize : JSNum) :
    PaginateResult :=
  let total := sorted.length
  let totalPages := jsMax (.fin 1) (jsCeil (jsDiv (.fin total) pageSize))
  let currentPage := jsMin (jsMax (.fin 1) page) totalPages
  let data := jsSlice sorted (jsMul (jsSub currentPage (.fin 1)) pageSize)
    (jsMul currentPage pageSize)
  ⟨data, total, totalPages, currentPage⟩

/-- The accumulator of `selectGlobalTotals` (donut-chart sums). -/
structure Totals where
  completed : Nat
  inWork : Nat
  failed : Nat
deriving DecidableEq

/-- The aggregate sums selector `selectGlobalTotals`: a reduce over the
whole (unfiltered) collection. -/
def selectGlobalTotals (global : List UserStatistic) : Totals :=
  global.foldl
    (fun acc u =>
      ⟨acc.completed + u.completedTasks, acc.inWork + u.inWorkTasks,
        acc.failed + u.failedTasks⟩)
    ⟨0, 0, 0⟩

/-- Model of `Math.round` on an exact value: round half toward positive
infinity. -/
def jsRound (q : ℚ) : ℤ :=
  ratFloor (q + 1 / 2)

/-- Model of `+x.toFixed(2)` on an exact non-negative value: round to two
decimal places, ties away from zero. -/
def toFixed2 (q : ℚ) : ℚ :=
  (jsRound (q * 100) : ℚ) / 100

/-- One row of the leaderboard produced by `selectGlobalKpis`. -/
structure LeaderboardEntry where
  place : Nat
  id : Nat
  name : String
  completed : Nat
deriving DecidableEq

/-- The KPI object produced by `selectGlobalKpis`. -/
structure Kpis where
  users : Nat
  total : Nat
  completed : Nat
  inWork : Nat
  failed : Nat
  doneRate : ℤ
  avgCompletedPerUser : ℚ
  top : Option UserStatistic
  leaderboard : List LeaderboardEntry
deriving DecidableEq

/-- The aggregate stage `selectGlobalKpis`: sums accumulated in one pass
over the whole collection, the done rate and per-user average with their
division-by-zero guards, and the completed-count leader and top-5
leaderboard obtained from a copy sorted with the `completedDesc`
comparator. -/
def selectGlobalKpis (global : List UserStatistic) : Kpis :=
  let users := global.length
  let sums := global.foldl
    (fun acc u =>
      (acc.1 + u.completedTasks, acc.2.1 + u.inWorkTasks,
        acc.2.2 + u.failedTasks))
    ((0 : Nat), (0 : Nat), (0 : Nat))
  let completed := sums.1
  let inWork := sums.2.1
  let failed := sums.2.2
  let total := completed + inWork + failed
  let doneRate : ℤ :=
    if total = 0 then 0 else jsRound ((completed : ℚ) / (total : ℚ) * 100)
  let avgCompletedPerUser : ℚ :=
    if users = 0 then 0 else toFixed2 ((completed : ℚ) / (users : ℚ))
  let byCompleted := jsSortBy cmpCompletedDesc global
  let top : Option UserStatistic :=
    match byCompleted.head? with
    | some u => if 0 < u.completedTasks then some u else none
    | none => none
  let leaderboard :=
    (((byCompleted.filter (fun u => decide (0 < u.completedTasks))).take 5).enum).map
      (fun p => LeaderboardEntry.mk (p.1 + 1) p.2.id p.2.name p.2.completedTasks)
  ⟨users, total, completed, inWork, failed, doneRate, avgCompletedPerUser,
    top, leaderboard⟩

/-- First record of the tie-breaking scenario of the spec. -/
def anya : UserStatistic :=
  ⟨1, "Аня", none, 5, 0, 0⟩

/-- Second record of the tie-breaking scenario of the spec. -/
def boris : UserStatistic :=
  ⟨2, "Борис", none, 5, 0, 0⟩

/-- Third record of the tie-breaking scenario of the spec. -/
def vera : UserStatistic :=
  ⟨3, "Вера", none, 2, 0, 0⟩

theorem ratFloor_eq (q : ℚ) : ratFloor q = ⌊q⌋ :=
  Rat.floor_def.symm

theorem ratCeil_eq (q : ℚ) : ratCeil q = ⌈q⌉ := by
  rw [ratCeil, ratFloor_eq, Int.floor_neg, neg_neg]

theorem cmpNatList_refl : ∀ a : List Nat, cmpNatList a a = 0
  | [] => rfl
  | _ :: xs => by simp [cmpNatList, cmpNatList_refl xs]

theorem cmpNatList_swap : ∀ a b : List Nat, cmpNatList b a = -cmpNatList a b
  | [], [] => rfl
  | [], _ :: _ => rfl
  | _ :: _, [] => rfl
  | a :: as, b :: bs => by
    simp only [cmpNatList]
    split_ifs <;> first | omega | exact cmpNatList_swap as bs

theorem cmpNatList_le_trans :
    ∀ a b c : List Nat, cmpNatList a b ≤ 0 → cmpNatList b c ≤ 0 →
      cmpNatList a c ≤ 0
  | [], _, c, _, _ => by cases c <;> simp [cmpNatList]
  | _ :: _, [], _, h1, _ => by simp [cmpNatList] at h1
  | _ :: _, _ :: _, [], _, h2 => by simp [cmpNatList] at h2
  | a :: as, b :: bs, c :: cs, h1, h2 => by
    simp only [cmpNatList] at h1 h2 ⊢
    split_ifs at h1 h2 ⊢ <;>
      first
        | omega
        | (exfalso; omega)
        | exact cmpNatList_le_trans as bs cs h1 h2

theorem collatorRu_refl (x : String) : collatorRuCompare x x = 0 :=
  cmpNatList_refl _

theorem collatorRu_swap (x y : String) :
    collatorRuCompare y x = -collatorRuCompare x y :=
  cmpNatList_swap _ _

theorem collatorRu_le_trans (x y z : String)
    (h1 : collatorRuCompare x y ≤ 0) (h2 : collatorRuCompare y z ≤ 0) :
    collatorRuCompare x z ≤ 0 :=
  cmpNatList_le_trans _ _ _ h1 h2

theorem descCmp_le_iff (f : UserStatistic → Nat) (a b : UserStatistic) :
    descCmp f a b ≤ 0 ↔
      f b < f a ∨ (f a = f b ∧ collatorRuCompare a.name b.name ≤ 0) := by
  unfold descCmp
  split_ifs with h
  · constructor
    · intro hc
      exact Or.inr ⟨by omega, hc⟩
    · rintro (h1 | ⟨_, h1⟩)
      · omega
      · exact h1
  · constructor
    · intro hc
      left
      omega
    · rintro (h1 | ⟨h1, _⟩) <;> omega

theorem descCmp_swap (f : UserStatistic → Nat) (a b : UserStatistic) :
    descCmp f b a = -descCmp f a b := by
  unfold descCmp
  split_ifs with h1 h2 h2
  · rw [collatorRu_swap]
  · omega
  · omega
  · omega

theorem descCmp_le_trans (f : UserStatistic → Nat) (a b c : UserStatistic)
    (h1 : descCmp f a b ≤ 0) (h2 : descCmp f b c ≤ 0) : descCmp f a c ≤ 0 := by
  rw [descCmp_le_iff] at h1 h2 ⊢
  rcases h1 with h1 | ⟨h1, h1c⟩ <;> rcases h2 with h2 | ⟨h2, h2c⟩
  · exact Or.inl (by omega)
  · exact Or.inl (by omega)
  · exact Or.inl (by omega)
  · exact Or.inr ⟨by omega, collatorRu_le_trans _ _ _ h1c h2c⟩

theorem cmpNameAsc_swap (a b : UserStatistic) :
    cmpNameAsc b a = -cmpNameAsc a b :=
  collatorRu_swap _ _

theorem cmpNameAsc_le_trans (a b c : UserStatistic)
    (h1 : cmpNameAsc a b ≤ 0) (h2 : cmpNameAsc b c ≤ 0) : cmpNameAsc a c ≤ 0 :=
  collatorRu_le_trans _ _ _ h1 h2

theorem jsSortBy_perm (cmp : UserStatistic → UserStatistic → Int)
    (l : List UserStatistic) : (jsSortBy cmp l).Perm l :=
  List.perm_insertionSort _ l

theorem jsSortBy_sorted (cmp : UserStatistic → UserStatistic → Int)
    (hsw : ∀ a b, cmp b a = -cmp a b)
    (htr : ∀ a b c, cmp a b ≤ 0 → cmp b c ≤ 0 → cmp a c ≤ 0)
    (l : List UserStatistic) :
    (jsSortBy cmp l).Pairwise (fun a b => cmp a b ≤ 0) := by
  haveI : IsTotal UserStatistic (fun a b => cmp a b ≤ 0) :=
    ⟨fun a b => by
      rcases le_or_lt (cmp a b) 0 with h | h
      · exact Or.inl h
      · refine Or.inr ?_
        have := hsw a b
        omega⟩
  haveI : IsTrans UserStatistic (fun a b => cmp a b ≤ 0) := ⟨htr⟩
  exact List.sorted_insertionSort _ l

theorem jsSortBy_stable (cmp : UserStatistic → UserStatistic → Int)
    {l c : List UserStatistic}
    (hc : c.Pairwise (fun a b => cmp a b ≤ 0)) (hs : c.Sublist l) :
    c.Sublist (jsSortBy cmp l) :=
  List.sublist_insertionSort hc hs

theorem jsSortBy_idem (cmp : UserStatistic → UserStatistic → Int)
    (hsw : ∀ a b, cmp b a = -cmp a b)
    (htr : ∀ a b c, cmp a b ≤ 0 → cmp b c ≤ 0 → cmp a c ≤ 0)
    (l : List UserStatistic) :
    jsSortBy cmp (jsSortBy cmp l) = jsSortBy cmp l :=
  List.Sorted.insertionSort_eq (jsSortBy_sorted cmp hsw htr l)

theorem charsStartWith_iff :
    ∀ hay needle : List Char,
      charsStartWith hay needle = true ↔ needle <+: hay
  | hay, [] => by simp [charsStartWith]
  | [], _ :: _ => by simp [charsStartWith]
  | a :: as, b :: bs => by
    simp only [charsStartWith, Bool.and_eq_true, beq_iff_eq,
      List.cons_prefix_cons, charsStartWith_iff as bs]
    exact and_congr_left (fun _ => eq_comm)

theorem infixConsIff {l₁ l₂ : List Char} {a : Char} :
    l₁ <:+: a :: l₂ ↔ l₁ <+: a :: l₂ ∨ l₁ <:+: l₂ := by
  constructor
  · rintro ⟨s, t, h⟩
    cases s with
    | nil => exact Or.inl ⟨t, by simpa using h⟩
    | cons x s =>
      injection h with h1 h2
      exact Or.inr ⟨s, t, h2⟩
  · rintro (⟨t, h⟩ | ⟨s, t, h⟩)
    · exact ⟨[], t, by simpa using h⟩
    · exact ⟨a :: s, t, by simp [h]⟩

theorem charsContain_iff :
    ∀ hay needle : List Char,
      charsContain hay needle = true ↔ needle <:+: hay
  | [], needle => by
    rw [charsContain, charsStartWith_iff]
    simp
  | h :: t, needle => by
    rw [charsContain, Bool.or_eq_true, charsStartWith_iff,
      charsContain_iff t needle, infixConsIff]

theorem strIncludes_iff (s sub : String) :
    strIncludes s sub = true ↔ sub.data <:+: s.data :=
  charsContain_iff _ _

/-- The filter predicate as the spec states it: the trimmed, case-folded
query is empty or occurs in the case-folded name, and when `onlyActive` is
set the record has at least one task. -/
def matchesFilter (query : String) (onlyActive : Bool) (u : UserStatistic) :
    Prop :=
  (jsToLower (jsTrim query) = "" ∨
    (jsToLower (jsTrim query)).data <:+: (jsToLower u.name).data) ∧
  (onlyActive = true → 0 < totalTasks u)

instance (query : String) (onlyActive : Bool) (u : UserStatistic) :
    Decidable (matchesFilter query onlyActive u) := by
  unfold matchesFilter
  infer_instance

theorem strIncludes_eq_decide (s sub : String) :
    strIncludes s sub = decide (sub.data <:+: s.data) := by
  by_cases h : sub.data <:+: s.data
  · simp [h, (strIncludes_iff s sub).mpr h]
  · have hb : strIncludes s sub = false := by
      rcases Bool.eq_false_or_eq_true (strIncludes s sub) with ht | hf
      · exact absurd ((strIncludes_iff s sub).mp ht) h
      · exact hf
    simp [h, hb]

/-- C3: for every record list, query, and active flag, the filter stage
returns exactly the records (in input order) whose case-folded name
contains the trimmed, case-folded query — all records when the trimmed
query is empty — and, when `onlyActive` is set, whose task total is
positive. -/
theorem filter_characterization (X : List UserStatistic) (query : String)
    (onlyActive : Bool) :
    makeSelectFiltered X query onlyActive =
      X.filter (fun u => decide (matchesFilter query onlyActive u)) := by
  simp only [makeSelectFiltered]
  by_cases hq : jsToLower (jsTrim query) = ""
  · rw [if_pos hq]
    cases onlyActive with
    | false =>
      simp only [Bool.false_eq_true, if_false]
      conv_rhs => rw [List.filter_congr (q := fun _ => true)
        (fun u _ => by simp [matchesFilter, hq])]
      exact (List.filter_true X).symm
    | true =>
      simp only [if_true]
      exact List.filter_congr (fun u _ => by simp [matchesFilter, hq])
  · rw [if_neg hq]
    cases onlyActive with
    | false =>
      simp only [Bool.false_eq_true, if_false]
      exact List.filter_congr (fun u _ => by
        simp [matchesFilter, hq, strIncludes_eq_decide])
    | true =>
      simp only [if_true, List.filter_filter]
      exact List.filter_congr (fun u _ => by
        simp [matchesFilter, hq, strIncludes_eq_decide, Bool.and_comm])

/-- C9: the empty query with `onlyActive` off keeps every record, and
turning `onlyActive` on can only shrink the result. -/
theorem filter_monotone (X : List UserStatistic) (query : String) :
    (makeSelectFiltered X "" false).length = X.length ∧
    (makeSelectFiltered X query true).length ≤
      (makeSelectFiltered X query false).length := by
  constructor
  · rfl
  · simp only [makeSelectFiltered, if_true, Bool.false_eq_true, if_false]
    exact List.length_filter_le _ _

theorem descCmp_le_of_eq (f : UserStatistic → Nat) (a b : UserStatistic)
    (h1 : f a = f b) (h2 : collatorRuCompare a.name b.name = 0) :
    descCmp f a b ≤ 0 :=
  (descCmp_le_iff f a b).mpr (Or.inr ⟨h1, le_of_eq h2⟩)

/-- The metric named by a descending sort mode. -/
def metricOf (m : String) (u : UserStatistic) : Nat :=
  if m = "completedDesc" then u.completedTasks
  else if m = "failedDesc" then u.failedTasks
  else u.inWorkTasks

/-- The order the spec prescribes for a descending mode: strictly larger
metric first, ties in locale-collated ascending name order. -/
def specDescRel (m : String) (a b : UserStatistic) : Prop :=
  metricOf m b < metricOf m a ∨
    (metricOf m a = metricOf m b ∧ collatorRuCompare a.name b.name ≤ 0)

/-- Equality of the full sort key of a descending mode. -/
def sameSortKey (m : String) (a b : UserStatistic) : Prop :=
  metricOf m a = metricOf m b ∧ collatorRuCompare a.name b.name = 0

theorem sortDescCase (f : UserStatistic → Nat) (l : List UserStatistic) :
    (jsSortBy (descCmp f) l).Pairwise
      (fun a b => f b < f a ∨
        (f a = f b ∧ collatorRuCompare a.name b.name ≤ 0)) ∧
    ∀ c : List UserStatistic, c.Sublist l →
      c.Pairwise (fun a b => f a = f b ∧ collatorRuCompare a.name b.name = 0) →
      c.Sublist (jsSortBy (descCmp f) l) := by
  constructor
  · exact (jsSortBy_sorted (descCmp f) (descCmp_swap f) (descCmp_le_trans f)
      l).imp (fun hab => (descCmp_le_iff f _ _).mp hab)
  · intro c hsub hkey
    exact jsSortBy_stable (descCmp f)
      (hkey.imp (fun hk => descCmp_le_of_eq f _ _ hk.1 hk.2)) hsub

theorem metricOf_completed :
    metricOf "completedDesc" = fun u => u.completedTasks := by
  funext u
  simp [metricOf]

theorem metricOf_failed :
    metricOf "failedDesc" = fun u => u.failedTasks := by
  funext u
  simp [metricOf]

theorem metricOf_inWork :
    metricOf "inWorkDesc" = fun u => u.inWorkTasks := by
  funext u
  simp [metricOf]

theorem makeSelectSorted_completed (l : List UserStatistic) :
    makeSelectSorted l "completedDesc" = jsSortBy cmpCompletedDesc l := by
  simp [makeSelectSorted]

theorem makeSelectSorted_failed (l : List UserStatistic) :
    makeSelectSorted l "failedDesc" = jsSortBy cmpFailedDesc l := by
  simp [makeSelectSorted]

theorem makeSelectSorted_inWork (l : List UserStatistic) :
    makeSelectSorted l "inWorkDesc" = jsSortBy cmpInWorkDesc l := by
  simp [makeSelectSorted]

theorem makeSelectSorted_nameAsc (l : List UserStatistic) :
    makeSelectSorted l "nameAsc" = jsSortBy cmpNameAsc l := by
  simp [makeSelectSorted]

theorem specDescRel_completed :
    specDescRel "completedDesc" = fun a b =>
      b.completedTasks < a.completedTasks ∨
        (a.completedTasks = b.completedTasks ∧
          collatorRuCompare a.name b.name ≤ 0) := by
  funext a b
  simp [specDescRel, metricOf]

theorem specDescRel_failed :
    specDescRel "failedDesc" = fun a b =>
      b.failedTasks < a.failedTasks ∨
        (a.failedTasks = b.failedTasks ∧
          collatorRuCompare a.name b.name ≤ 0) := by
  funext a b
  simp [specDescRel, metricOf]

theorem specDescRel_inWork :
    specDescRel "inWorkDesc" = fun a b =>
      b.inWorkTasks < a.inWorkTasks ∨
        (a.inWorkTasks = b.inWorkTasks ∧
          collatorRuCompare a.name b.name ≤ 0) := by
  funext a b
  simp [specDescRel, metricOf]

theorem sameSortKey_completed :
    sameSortKey "completedDesc" = fun a b =>
      a.completedTasks = b.completedTasks ∧
        collatorRuCompare a.name b.name = 0 := by
  funext a b
  simp [sameSortKey, metricOf]

theorem sameSortKey_failed :
    sameSortKey "failedDesc" = fun a b =>
      a.failedTasks = b.failedTasks ∧ collatorRuCompare a.name b.name = 0 := by
  funext a b
  simp [sameSortKey, metricOf]

theorem sameSortKey_inWork :
    sameSortKey "inWorkDesc" = fun a b =>
      a.inWorkTasks = b.inWorkTasks ∧ collatorRuCompare a.name b.name = 0 := by
  funext a b
  simp [sameSortKey, metricOf]

/-- C2: for each descending mode, the sort stage orders records by the named
metric numerically descending with ties broken by locale-collated ascending
name, is stable under equal full key, and on the spec scenario of three
Cyrillic names it returns the prescribed order. -/
theorem sort_desc_modes :
    (∀ m ∈ (["completedDesc", "failedDesc", "inWorkDesc"] : List String),
      ∀ l : List UserStatistic,
        (makeSelectSorted l m).Pairwise (specDescRel m) ∧
        ∀ c : List UserStatistic, c.Sublist l → c.Pairwise (sameSortKey m) →
          c.Sublist (makeSelectSorted l m)) ∧
    (makeSelectSorted [anya, boris, vera] "completedDesc").map
      (fun u => u.name) = ["Аня", "Борис", "Вера"] := by
  constructor
  · intro m hm l
    simp only [List.mem_cons, List.not_mem_nil, or_false] at hm
    rcases hm with rfl | rfl | rfl
    · rw [makeSelectSorted_completed, specDescRel_completed,
        sameSortKey_completed]
      exact sortDescCase (fun u => u.completedTasks) l
    · rw [makeSelectSorted_failed, specDescRel_failed, sameSortKey_failed]
      exact sortDescCase (fun u => u.failedTasks) l
    · rw [makeSelectSorted_inWork, specDescRel_inWork, sameSortKey_inWork]
      exact sortDescCase (fun u => u.inWorkTasks) l
  · decide

theorem sort_desc_modes_witness :
    ("completedDesc" ∈ (["completedDesc", "failedDesc", "inWorkDesc"] :
      List String)) ∧
    (makeSelectSorted [boris, vera, anya] "completedDesc").Pairwise
      (specDescRel "completedDesc") :=
  ⟨by decide,
    (sort_desc_modes.1 "completedDesc" (by decide) [boris, vera, anya]).1⟩

/-- The four sort modes the slice enumerates (`SortMode` in
`statisticsSlice`). -/
def knownSortModes : List String :=
  ["completedDesc", "nameAsc", "failedDesc", "inWorkDesc"]

/-- C7: any sort mode outside the four enumerated ones takes the default
switch branch, which is the `nameAsc` single-key locale comparison. -/
theorem sort_unknown_mode_defaults (l : List UserStatistic) (m : String)
    (h : m ∉ knownSortModes) :
    makeSelectSorted l m = makeSelectSorted l "nameAsc" ∧
    makeSelectSorted l m = jsSortBy cmpNameAsc l := by
  simp only [knownSortModes, List.mem_cons, List.not_mem_nil, or_false,
    not_or] at h
  obtain ⟨h1, h2, h3, h4⟩ := h
  have hm : makeSelectSorted l m = jsSortBy cmpNameAsc l := by
    simp only [makeSelectSorted, if_neg h1, if_neg h3, if_neg h4]
  exact ⟨hm.trans (makeSelectSorted_nameAsc l).symm, hm⟩

theorem sort_unknown_mode_defaults_witness :
    ("bogus" ∉ knownSortModes) ∧
    makeSelectSorted [vera, anya] "bogus" =
      makeSelectSorted [vera, anya] "nameAsc" :=
  ⟨by decide, (sort_unknown_mode_defaults [vera, anya] "bogus" (by decide)).1⟩

/-- C8: sorting is idempotent for every mode. -/
theorem sort_idempotent (l : List UserStatistic) (m : String) :
    makeSelectSorted (makeSelectSorted l m) m = makeSelectSorted l m := by
  simp only [makeSelectSorted]
  split_ifs
  · exact jsSortBy_idem _ (descCmp_swap _) (descCmp_le_trans _) l
  · exact jsSortBy_idem _ (descCmp_swap _) (descCmp_le_trans _) l
  · exact jsSortBy_idem _ (descCmp_swap _) (descCmp_le_trans _) l
  · exact jsSortBy_idem _ cmpNameAsc_swap cmpNameAsc_le_trans l

/-- C10: the sort stage permutes its input: same length and same
multiplicity of every record, so nothing is dropped, duplicated or
modified. -/
theorem sort_is_permutation (l : List UserStatistic) (m : String) :
    (makeSelectSorted l m).Perm l ∧
    (makeSelectSorted l m).length = l.length ∧
    ∀ u : UserStatistic, (makeSelectSorted l m).count u = l.count u := by
  have hp : (makeSelectSorted l m).Perm l := by
    simp only [makeSelectSorted]
    split_ifs <;> exact jsSortBy_perm _ l
  exact ⟨hp, hp.length_eq, fun u => hp.count_eq u⟩

theorem jsDiv_fin_fin (a b : ℚ) (hb : b ≠ 0) :
    jsDiv (.fin a) (.fin b) = .fin (a / b) := by
  simp [jsDiv, hb]

theorem jsCeil_fin (q : ℚ) : jsCeil (.fin q) = .fin ((⌈q⌉ : ℤ) : ℚ) := by
  simp [jsCeil, ratCeil_eq]

theorem jsMax_fin_fin (a b : ℚ) : jsMax (.fin a) (.fin b) = .fin (max a b) :=
  rfl

theorem jsMin_fin_fin (a b : ℚ) : jsMin (.fin a) (.fin b) = .fin (min a b) :=
  rfl

theorem jsSub_fin_fin (a b : ℚ) : jsSub (.fin a) (.fin b) = .fin (a - b) :=
  rfl

theorem jsMul_fin_fin (a b : ℚ) : jsMul (.fin a) (.fin b) = .fin (a * b) :=
  rfl

theorem jsToIntegerOrInfinity_int (v : ℤ) :
    jsToIntegerOrInfinity (.fin (v : ℚ)) = .int v := by
  simp only [jsToIntegerOrInfinity, ratFloor_eq, ratCeil_eq]
  split_ifs <;> simp

theorem sliceIndex_int_nonneg (len : ℕ) (v : ℤ) (hv : 0 ≤ v) :
    sliceIndex len (.int v) = min v.toNat len := by
  simp [sliceIndex, not_lt.mpr hv]

theorem take_min_drop_min (X : List UserStatistic) (a b : ℕ) :
    (X.take (min b X.length)).drop (min a X.length) =
      (X.drop a).take (b - a) := by
  have h1 : X.take (min b X.length) = X.take b := by
    rw [List.take_eq_take]
    simp [Nat.min_assoc]
  rw [h1]
  rcases le_or_lt a X.length with ha | ha
  · rw [min_eq_left ha, List.drop_take]
  · have hx1 : (X.take b).drop X.length = [] :=
      List.drop_eq_nil_of_le (by simp)
    have hx2 : X.drop a = [] := List.drop_eq_nil_of_le ha.le
    rw [min_eq_right ha.le, hx1, hx2, List.take_nil]

theorem jsMax_one_int (v : ℤ) :
    jsMax (.fin 1) (.fin (v : ℚ)) = .fin ((max 1 v : ℤ) : ℚ) := by
  rw [jsMax_fin_fin]
  norm_cast

theorem jsMin_int_int (a b : ℤ) :
    jsMin (.fin (a : ℚ)) (.fin (b : ℚ)) = .fin ((min a b : ℤ) : ℚ) := by
  rw [jsMin_fin_fin]
  norm_cast

theorem jsSub_int_one (a : ℤ) :
    jsSub (.fin (a : ℚ)) (.fin 1) = .fin ((a - 1 : ℤ) : ℚ) := by
  rw [jsSub_fin_fin]
  norm_cast

theorem jsMul_int_int (a b : ℤ) :
    jsMul (.fin (a : ℚ)) (.fin (b : ℚ)) = .fin ((a * b : ℤ) : ℚ) := by
  rw [jsMul_fin_fin]
  norm_cast

/-- C1: for any integer page `p` and positive integer page size `n`, the
paginate stage reports `total` = list length,
`totalPages = max(1, ceil(total / n))`, `currentPage = clamp(p, 1,
totalPages)` (out-of-range pages silently corrected), and `data` the slice
`[(currentPage - 1) * n, currentPage * n)`, which is empty when the list
is empty. -/
theorem paginate_spec (X : List UserStatistic) (p n : ℤ) (hn : 1 ≤ n) :
    makeSelectPaginated X (.fin (p : ℚ)) (.fin (n : ℚ)) =
      { data := (X.drop
            ((min (max 1 p) (max 1 ⌈(X.length : ℚ) / (n : ℚ)⌉) - 1) *
              n).toNat).take n.toNat,
        total := X.length,
        totalPages := .fin ((max 1 ⌈(X.length : ℚ) / (n : ℚ)⌉ : ℤ) : ℚ),
        currentPage := .fin ((min (max 1 p)
          (max 1 ⌈(X.length : ℚ) / (n : ℚ)⌉) : ℤ) : ℚ) } ∧
    (X = [] →
      (makeSelectPaginated X (.fin (p : ℚ)) (.fin (n : ℚ))).data = []) := by
  have hn0 : (n : ℚ) ≠ 0 := Int.cast_ne_zero.mpr (by omega)
  have hmain : makeSelectPaginated X (.fin (p : ℚ)) (.fin (n : ℚ)) =
      { data := (X.drop
            ((min (max 1 p) (max 1 ⌈(X.length : ℚ) / (n : ℚ)⌉) - 1) *
              n).toNat).take n.toNat,
        total := X.length,
        totalPages := .fin ((max 1 ⌈(X.length : ℚ) / (n : ℚ)⌉ : ℤ) : ℚ),
        currentPage := .fin ((min (max 1 p)
          (max 1 ⌈(X.length : ℚ) / (n : ℚ)⌉) : ℤ) : ℚ) } := by
    simp only [makeSelectPaginated, jsDiv_fin_fin _ _ hn0, jsCeil_fin,
      jsMax_one_int, jsMin_int_int, jsSub_int_one, jsMul_int_int,
      jsToIntegerOrInfinity_int, jsSlice]
    set cp : ℤ := min (max 1 p) (max 1 ⌈(X.length : ℚ) / (n : ℚ)⌉) with hcp
    have hcp1 : 1 ≤ cp := le_min (le_max_left 1 p) (le_max_left _ _)
    have hnn1 : (0 : ℤ) ≤ (cp - 1) * n := mul_nonneg (by omega) (by omega)
    have hnn2 : (0 : ℤ) ≤ cp * n := mul_nonneg (by omega) (by omega)
    rw [sliceIndex_int_nonneg _ _ hnn1, sliceIndex_int_nonneg _ _ hnn2,
      take_min_drop_min]
    have e6 : (cp * n).toNat - ((cp - 1) * n).toNat = n.toNat := by
      have e : cp * n = (cp - 1) * n + n := by ring
      omega
    rw [e6]
  refine ⟨hmain, fun h0 => ?_⟩
  rw [hmain]
  subst h0
  simp

theorem paginate_spec_witness :
    ((1 : ℤ) ≤ 2) ∧
    makeSelectPaginated [anya, boris, vera] (.fin ((5 : ℤ) : ℚ))
      (.fin ((2 : ℤ) : ℚ)) =
      { data := [vera], total := 3, totalPages := .fin 2,
        currentPage := .fin 2 } := by
  refine ⟨by norm_num, ?_⟩
  rw [(paginate_spec [anya, boris, vera] 5 2 (by norm_num)).1]
  have hceil : (⌈(3 : ℚ) / 2⌉ : ℤ) = 2 := by
    rw [Int.ceil_eq_iff] <;> norm_num
  norm_num [hceil, List.take, List.drop]

/-- C6 evaluation: with one record, requested page 1 and pageSize 0 the
paginate stage divides by zero and reports `totalPages = Infinity` instead
of clamping the page size to 1 (which would give `totalPages = 1`). -/
theorem paginate_pageSize_zero_not_clamped :
    (makeSelectPaginated [anya] (.fin 1) (.fin 0)).totalPages = JSNum.inf :=
  rfl

/-- Claim-side sum of completed counts. -/
def sumCompleted (X : List UserStatistic) : Nat :=
  (X.map (fun u => u.completedTasks)).sum

/-- Claim-side sum of in-work counts. -/
def sumInWork (X : List UserStatistic) : Nat :=
  (X.map (fun u => u.inWorkTasks)).sum

/-- Claim-side sum of failed counts. -/
def sumFailed (X : List UserStatistic) : Nat :=
  (X.map (fun u => u.failedTasks)).sum

theorem kpiFold_eq (X : List UserStatistic) :
    ∀ a b c : Nat,
      X.foldl
        (fun acc u =>
          (acc.1 + u.completedTasks, acc.2.1 + u.inWorkTasks,
            acc.2.2 + u.failedTasks)) (a, b, c) =
        (a + sumCompleted X, b + sumInWork X, c + sumFailed X) := by
  induction X with
  | nil => simp [sumCompleted, sumInWork, sumFailed]
  | cons x xs ih =>
    intro a b c
    simp only [List.foldl_cons, ih, sumCompleted, sumInWork, sumFailed,
      List.map_cons, List.sum_cons, Prod.mk.injEq]
    omega

theorem totalsFold_eq (X : List UserStatistic) :
    ∀ a b c : Nat,
      X.foldl
        (fun acc u =>
          ⟨acc.completed + u.completedTasks, acc.inWork + u.inWorkTasks,
            acc.failed + u.failedTasks⟩) (⟨a, b, c⟩ : Totals) =
        ⟨a + sumCompleted X, b + sumInWork X, c + sumFailed X⟩ := by
  induction X with
  | nil => simp [sumCompleted, sumInWork, sumFailed]
  | cons x xs ih =>
    intro a b c
    simp only [List.foldl_cons, ih, sumCompleted, sumInWork, sumFailed,
      List.map_cons, List.sum_cons, Totals.mk.injEq]
    omega

theorem aggregate_conservation (X : List UserStatistic) :
    selectGlobalTotals X = ⟨sumCompleted X, sumInWork X, sumFailed X⟩ ∧
    (selectGlobalKpis X).completed = sumCompleted X ∧
    (selectGlobalKpis X).inWork = sumInWork X ∧
    (selectGlobalKpis X).failed = sumFailed X ∧
    (selectGlobalKpis X).doneRate =
      (if 0 < sumCompleted X + sumInWork X + sumFailed X then
        ⌊(sumCompleted X : ℚ) /
            ((sumCompleted X + sumInWork X + sumFailed X : Nat) : ℚ) * 100 +
          1 / 2⌋
      else 0) ∧
    (selectGlobalKpis X).avgCompletedPerUser =
      (if 0 < X.length then
        ((⌊(sumCompleted X : ℚ) / (X.length : ℚ) * 100 + 1 / 2⌋ : ℤ) : ℚ) /
          100
      else 0) := by
  have hfold := kpiFold_eq X 0 0 0
  have htot := totalsFold_eq X 0 0 0
  simp only [selectGlobalTotals, selectGlobalKpis, hfold, htot,
    jsRound, toFixed2, ratFloor_eq, Nat.zero_add]
  refine ⟨trivial, trivial, trivial, trivial, ?_, ?_⟩
  · split_ifs with h1 h2 h2 <;> simp_all
  · split_ifs with h1 h2 h2 <;> simp_all

theorem kpis_top_leaderboard (X : List UserStatistic) :
    ((selectGlobalKpis X).top = none ↔ ∀ u ∈ X, u.completedTasks = 0) ∧
    (∀ t, (selectGlobalKpis X).top = some t →
      t ∈ X ∧ 0 < t.completedTasks ∧
      ∀ u ∈ X, u.completedTasks ≤ t.completedTasks ∧
        (u.completedTasks = t.completedTasks →
          collatorRuCompare t.name u.name ≤ 0)) ∧
    (∃ s : List UserStatistic, s.Perm X ∧
      s.Pairwise (fun a b => cmpCompletedDesc a b ≤ 0) ∧
      (selectGlobalKpis X).leaderboard =
        ((s.filter (fun u => decide (0 < u.completedTasks))).take 5).enum.map
          (fun q => LeaderboardEntry.mk (q.1 + 1) q.2.id q.2.name
            q.2.completedTasks)) ∧
    ((selectGlobalKpis X).top = none →
      (selectGlobalKpis X).leaderboard = []) := by
  have hperm : (jsSortBy cmpCompletedDesc X).Perm X := jsSortBy_perm _ X
  have hsort : (jsSortBy cmpCompletedDesc X).Pairwise
      (fun a b => cmpCompletedDesc a b ≤ 0) :=
    jsSortBy_sorted cmpCompletedDesc (descCmp_swap _) (descCmp_le_trans _) X
  have htopdef : (selectGlobalKpis X).top =
      (match (jsSortBy cmpCompletedDesc X).head? with
        | some u => if 0 < u.completedTasks then some u else none
        | none => none) := rfl
  have hlbdef : (selectGlobalKpis X).leaderboard =
      (((jsSortBy cmpCompletedDesc X).filter
          (fun u => decide (0 < u.completedTasks))).take 5).enum.map
        (fun q => LeaderboardEntry.mk (q.1 + 1) q.2.id q.2.name
          q.2.completedTasks) := rfl
  have hdom : ∀ h rest, jsSortBy cmpCompletedDesc X = h :: rest →
      ∀ u ∈ X, u.completedTasks ≤ h.completedTasks ∧
        (u.completedTasks = h.completedTasks →
          collatorRuCompare h.name u.name ≤ 0) := by
    intro h rest hC u hu
    have hu' : u ∈ jsSortBy cmpCompletedDesc X := hperm.mem_iff.mpr hu
    rw [hC, List.mem_cons] at hu'
    rcases hu' with rfl | hu''
    · exact ⟨le_rfl, fun _ => le_of_eq (collatorRu_refl u.name)⟩
    · have hle : cmpCompletedDesc h u ≤ 0 := by
        rw [hC] at hsort
        exact (List.pairwise_cons.mp hsort).1 u hu''
      rw [cmpCompletedDesc, descCmp_le_iff] at hle
      rcases hle with hlt | ⟨heq, hname⟩
      · exact ⟨le_of_lt hlt, fun hequ => absurd hequ (by omega)⟩
      · exact ⟨le_of_eq heq.symm, fun _ => hname⟩
  cases hC : jsSortBy cmpCompletedDesc X with
  | nil =>
    have hX : X = [] := (hC ▸ hperm).symm.eq_nil
    subst hX
    refine ⟨by simp [htopdef, hC], ?_, ⟨[], by simp, by simp, ?_⟩, ?_⟩
    · intro t ht
      rw [htopdef, hC] at ht
      simp at ht
    · rw [hlbdef, hC]
    · intro _
      rw [hlbdef, hC]
      simp
  | cons h rest =>
    have hhX : h ∈ X := hperm.mem_iff.mp (hC ▸ List.mem_cons_self h rest)
    have htop2 : (selectGlobalKpis X).top =
        if 0 < h.completedTasks then some h else none := by
      rw [htopdef, hC]
      rfl
    refine ⟨?_, ?_, ⟨jsSortBy cmpCompletedDesc X, hperm, hsort, hlbdef⟩, ?_⟩
    · rw [htop2]
      constructor
      · intro hnone u hu
        have hle := (hdom h rest hC u hu).1
        by_cases hpos : 0 < h.completedTasks
        · rw [if_pos hpos] at hnone
          exact absurd hnone (by simp)
        · omega
      · intro hall
        have : h.completedTasks = 0 := hall h hhX
        rw [if_neg (by omega)]
    · intro t ht
      rw [htop2] at ht
      by_cases hpos : 0 < h.completedTasks
      · rw [if_pos hpos] at ht
        obtain rfl : h = t := Option.some.inj ht
        exact ⟨hhX, hpos, hdom _ rest hC⟩
      · rw [if_neg hpos] at ht
        exact absurd ht (by simp)
    · intro hnone
      rw [htop2] at hnone
      by_cases hpos : 0 < h.completedTasks
      · rw [if_pos hpos] at hnone
        exact absurd hnone (by simp)
      · have hall : ∀ u ∈ jsSortBy cmpCompletedDesc X,
            ¬(decide (0 < u.completedTasks) = true) := by
          intro u hu
          have hub := (hdom h rest hC u (hperm.mem_iff.mp hu)).1
          simp only [decide_eq_true_eq]
          omega
        rw [hlbdef, List.filter_eq_nil_iff.mpr hall]
        rfl

theorem kpis_top_leaderboard_witness :
    ((selectGlobalKpis [anya, boris, vera]).top = some anya) ∧
    (anya ∈ [anya, boris, vera] ∧ 0 < anya.completedTasks ∧
      ∀ u ∈ [anya, boris, vera], u.completedTasks ≤ anya.completedTasks ∧
        (u.completedTasks = anya.completedTasks →
          collatorRuCompare anya.name u.name ≤ 0)) :=
  ⟨by decide, (kpis_top_leaderboard [anya, boris, vera]).2.1 anya (by decide)⟩
